import Mathlib

/-!
Shallow embedding of the zero-to-llama decoder-only transformer
(rotary positional encoding, grouped-query causal self-attention with a
key/value cache, SwiGLU feed-forward, transformer blocks and the full model),
with tensors embedded as index functions into the real numbers and the
additive causal mask embedded into the extended reals (so that the float("-inf") entries become the bottom element).  Definitions follow the
source notebook cell by cell; theorems settle the specification claims.
-/

namespace ZeroToLlama

noncomputable section

/-- Model hyper-parameters, mirroring the source dataclass Args
(dim, n_layers, n_heads, optional n_kv_heads, vocab_size, multiple_of,
optional ffn_dim_multiplier, norm_eps, batch_size, seq_len). -/
structure Args where
  dim : ℕ
  n_layers : ℕ
  n_heads : ℕ
  n_kv_heads : Option ℕ
  vocab_size : ℕ
  multiple_of : ℕ
  ffn_dim_multiplier : Option ℕ
  norm_eps : ℝ
  batch_size : ℕ
  seq_len : ℕ

/-- Number of query heads, per SelfAttention.init: self.n_q_heads = args.n_heads. -/
def Args.n_q_heads (a : Args) : ℕ := a.n_heads

/-- Number of key/value heads, per SelfAttention.init:
args.n_heads if args.n_kv_heads is None else args.n_kv_heads. -/
def Args.nkv (a : Args) : ℕ := a.n_kv_heads.getD a.n_heads

/-- Replication factor, per SelfAttention.init: n_q_heads // n_kv_heads. -/
def Args.n_rep (a : Args) : ℕ := a.n_q_heads / a.nkv

/-- Head size, per SelfAttention.init: args.dim // args.n_heads. -/
def Args.h_size (a : Args) : ℕ := a.dim / a.n_heads

/-- A (batch, position, channel)-indexed real tensor. -/
abbrev Seq3 := ℕ → ℕ → ℕ → ℝ

/-- A (batch, position, head, channel)-indexed real tensor,
the shape of the per-layer key/value caches. -/
abbrev Heads4 := ℕ → ℕ → ℕ → ℕ → ℝ

/-- A (position, pair-index)-indexed table of complex rotation factors. -/
abbrev Freqs := ℕ → ℕ → ℂ

/-- An additive attention mask: (query-row, key-column) to extended real,
with bottom standing for the float value float("-inf"). -/
abbrev Mask := ℕ → ℕ → EReal

/-- One entry of the rotary table, from the source precomputed_freqs:
inverse frequency theta^(-(2 i)/dim) for pair index i, angle m times that
frequency for position m, and torch.polar(1, angle) = exp(angle * I). -/
def precomputedFreqs (dim seqlen : ℕ) (theta : ℝ) (m i : ℕ) : ℂ :=
  Complex.exp ((((m : ℝ) * (theta ^ (((2 * i : ℕ) : ℝ) / (dim : ℝ)))⁻¹ : ℝ) : ℂ) * Complex.I)

/-- Rotary application to one head vector, from the source rope: the last
dimension is viewed as consecutive complex pairs (channels 2j, 2j+1),
each pair is multiplied by the rotation factor for its pair index, and the
result is viewed back as reals. -/
def ropeF (f : ℕ → ℂ) (v : ℕ → ℝ) (d : ℕ) : ℝ :=
  if d % 2 = 0 then ((⟨v (2 * (d / 2)), v (2 * (d / 2) + 1)⟩ : ℂ) * f (d / 2)).re
  else ((⟨v (2 * (d / 2)), v (2 * (d / 2) + 1)⟩ : ℂ) * f (d / 2)).im

/-- Index transformation performed by the source rep_tensor
(torch.repeat_interleave along the head dimension, with the n_rep = 1
early-return branch): output head h comes from input head h / n_rep. -/
def repIdx (n_rep h : ℕ) : ℕ := if n_rep = 1 then h else h / n_rep

/-- A linear layer without bias (nn.LazyLinear(..., bias=False)):
output j is the dot product of weight row j with the input. -/
def linearF (W : ℕ → ℕ → ℝ) (inDim : ℕ) (x : ℕ → ℝ) (j : ℕ) : ℝ :=
  ∑ i ∈ Finset.range inDim, W j i * x i

/-- Weight and epsilon of an RMSNorm module. -/
structure RMSNormW where
  w : ℕ → ℝ
  eps : ℝ

/-- RMSNorm.forward: x * rsqrt(mean(x^2, last dim) + eps) * w. -/
def rmsnorm (nw : RMSNormW) (dim : ℕ) (x : ℕ → ℝ) (j : ℕ) : ℝ :=
  x j * (Real.sqrt ((∑ i ∈ Finset.range dim, x i ^ 2) / (dim : ℝ) + nw.eps))⁻¹ * nw.w j

/-- Exponential extended to the extended reals, used to give semantics to
softmax applied after adding a mask containing float("-inf") entries:
exp(-inf) = 0 in the source runtime. -/
def expE (x : EReal) : ℝ :=
  if x = ⊥ then 0 else if x = ⊤ then 0 else Real.exp x.toReal

/-- One row of F.softmax over the key dimension of length n. -/
def softmaxRow (n : ℕ) (s : ℕ → EReal) (p : ℕ) : ℝ :=
  expE (s p) / ∑ q ∈ Finset.range n, expE (s q)

/-- The four projection matrices of a SelfAttention module. -/
structure AttnW where
  wq : ℕ → ℕ → ℝ
  wk : ℕ → ℕ → ℝ
  wv : ℕ → ℕ → ℝ
  wo : ℕ → ℕ → ℝ

/-- The mutable state of a SelfAttention module: its key and value caches,
each of (batch, position, kv-head, channel) shape. -/
@[ext]
structure AttnState where
  k_cache : Heads4
  v_cache : Heads4

/-- Projection to per-head shape: q = self.wq(x).view(B, T, n_heads, h_size),
head h channel d reads flat channel h * h_size + d. -/
def projHeads (c : Args) (W : ℕ → ℕ → ℝ) (x : Seq3) (b t h d : ℕ) : ℝ :=
  linearF W c.dim (x b t) (h * c.h_size + d)

/-- Projection followed by rope, as the source applies to q and k. -/
def qRotF (c : Args) (W : ℕ → ℕ → ℝ) (freqs : Freqs) (x : Seq3) (b t h d : ℕ) : ℝ :=
  ropeF (freqs t) (fun e => projHeads c W x b t h e) d

/-- Slice assignment cache[:B, start_pos : start_pos + T] = src with the
PyTorch range semantics: a batch row is written when b < B and b is inside
the allocated batch dimension, a position when it lies in
[start_pos, start_pos + T) and inside the allocated sequence length
(an out-of-range slice clamps instead of writing). -/
def writeSlice (cache : Heads4) (B s T bsz slen : ℕ) (src : Heads4) : Heads4 :=
  fun b p h d =>
    if b < B ∧ b < bsz ∧ s ≤ p ∧ p < s + T ∧ p < slen then src b (p - s) h d
    else cache b p h d

/-- The caches after the two cache-write lines of SelfAttention.forward:
rope-rotated keys into k_cache, plain value projections into v_cache,
both at [:B, start_pos : start_pos + T]. -/
def attnNewState (c : Args) (w : AttnW) (st : AttnState) (x : Seq3) (B T s : ℕ)
    (freqs : Freqs) : AttnState where
  k_cache := writeSlice st.k_cache B s T c.batch_size c.seq_len (qRotF c w.wk freqs x)
  v_cache := writeSlice st.v_cache B s T c.batch_size c.seq_len (projHeads c w.wv x)

/-- The tensor the source binds to the name k for the score computation.
The source line is k = self.v_cache[:B, :start_pos + T] - it reads the
VALUE cache, not the key cache. -/
def keysUsed (c : Args) (w : AttnW) (st : AttnState) (x : Seq3) (B T s : ℕ)
    (freqs : Freqs) : Heads4 :=
  (attnNewState c w st x B T s freqs).v_cache

/-- The tensor the source binds to the name v, v = self.v_cache[:B, :start_pos + T]. -/
def valsUsed (c : Args) (w : AttnW) (st : AttnState) (x : Seq3) (B T s : ℕ)
    (freqs : Freqs) : Heads4 :=
  (attnNewState c w st x B T s freqs).v_cache

/-- Attention scores before masking: torch.matmul(q, k.transpose(-2, -1))
scaled by math.sqrt(h_size) (the source multiplies by the square root),
with the key tensor expanded across query-head groups by rep_tensor. -/
def attnScores (c : Args) (q k : Heads4) (b h t p : ℕ) : ℝ :=
  (∑ d ∈ Finset.range c.h_size, q b t h d * k b p (repIdx c.n_rep h) d) *
    Real.sqrt (c.h_size : ℝ)

/-- Scores after the optional additive mask (attn += mask when mask is not None). -/
def scoresWithMask (mask : Option Mask) (sc : ℕ → ℕ → ℕ → ℕ → ℝ) (b h t p : ℕ) : EReal :=
  match mask with
  | none => ((sc b h t p : ℝ) : EReal)
  | some m => ((sc b h t p : ℝ) : EReal) + m t p

/-- Number of key positions attended to: the cache read [:B, :start_pos + T]
clamps at the allocated sequence length. -/
def attnKeyLen (c : Args) (T s : ℕ) : ℕ := min (s + T) c.seq_len

/-- Post-softmax attention weights of SelfAttention.forward. -/
def attnWeightsF (c : Args) (w : AttnW) (st : AttnState) (x : Seq3) (B T s : ℕ)
    (freqs : Freqs) (mask : Option Mask) (b h t p : ℕ) : ℝ :=
  softmaxRow (attnKeyLen c T s)
    (scoresWithMask mask
      (attnScores c (qRotF c w.wq freqs x) (keysUsed c w st x B T s freqs)) b h t) p

/-- Per-head attention output: weights applied to the (rep-expanded) value tensor. -/
def attnHeadsOut (c : Args) (w : AttnW) (st : AttnState) (x : Seq3) (B T s : ℕ)
    (freqs : Freqs) (mask : Option Mask) (b t h d : ℕ) : ℝ :=
  ∑ p ∈ Finset.range (attnKeyLen c T s),
    attnWeightsF c w st x B T s freqs mask b h t p *
      valsUsed c w st x B T s freqs b p (repIdx c.n_rep h) d

/-- Output of SelfAttention.forward: heads flattened back to n_q_heads * h_size
channels and sent through the output projection wo. -/
def attnOutF (c : Args) (w : AttnW) (st : AttnState) (x : Seq3) (B T s : ℕ)
    (freqs : Freqs) (mask : Option Mask) (b t j : ℕ) : ℝ :=
  linearF w.wo (c.n_q_heads * c.h_size)
    (fun e => attnHeadsOut c w st x B T s freqs mask b t (e / c.h_size) (e % c.h_size)) j

/-- The pure value/state core of SelfAttention.forward. -/
def SelfAttention.forwardCore (c : Args) (w : AttnW) (st : AttnState) (x : Seq3)
    (B T s : ℕ) (freqs : Freqs) (mask : Option Mask) : Seq3 × AttnState :=
  (attnOutF c w st x B T s freqs mask, attnNewState c w st x B T s freqs)

/-- Runtime failures of a SelfAttention.forward call: a failed shape assert
(shapeMismatch) or a shape mismatch raised by the cache slice assignment
(cacheWriteMismatch).  The source has no dedicated overflow check; an
overflowing multi-token write surfaces as cacheWriteMismatch. -/
inductive AttnErr where
  | shapeMismatch
  | cacheWriteMismatch
deriving DecidableEq

/-- Length of the clamped destination slice cache[:, start_pos : start_pos + T]. -/
def sliceLen (slen s T : ℕ) : ℕ := min slen (s + T) - min slen s

/-- SelfAttention.forward with its failure behavior: the two shape asserts on
the last input dimension D run first; the cache slice assignment then fails
unless the source block fits the clamped destination slice (a single-row
source broadcasts into an empty clamped slice, so T = 1 never fails, and a
batch dimension beyond the allocated cache fails).  On any failure the caches
are returned unchanged. -/
def SelfAttention.forward (c : Args) (w : AttnW) (st : AttnState) (x : Seq3)
    (B T D s : ℕ) (freqs : Freqs) (mask : Option Mask) :
    Except AttnErr Seq3 × AttnState :=
  if D = c.dim then
    if D = c.n_q_heads * c.h_size then
      if B ≤ c.batch_size then
        if T = 1 ∨ sliceLen c.seq_len s T = T then
          (Except.ok (attnOutF c w st x B T s freqs mask),
           attnNewState c w st x B T s freqs)
        else (Except.error AttnErr.cacheWriteMismatch, st)
      else (Except.error AttnErr.cacheWriteMismatch, st)
    else (Except.error AttnErr.shapeMismatch, st)
  else (Except.error AttnErr.shapeMismatch, st)

/-- The three projection matrices of an FFN module. -/
structure FFNW where
  w1 : ℕ → ℕ → ℝ
  w2 : ℕ → ℕ → ℝ
  w3 : ℕ → ℕ → ℝ

/-- Base hidden dimension of FFN.init before rounding:
hidden = int(2 * (4 * dim) / 3), then int(ffn_dim_multiplier * hidden)
when a multiplier is given. -/
def ffnBase (dim : ℕ) (m : Option ℕ) : ℕ :=
  match m with
  | none => 2 * (4 * dim) / 3
  | some k => k * (2 * (4 * dim) / 3)

/-- Hidden dimension of FFN.init: the base rounded up to the nearest
multiple of multiple_of via multiple_of * ((hidden + multiple_of - 1) // multiple_of). -/
def ffnHiddenDim (dim multiple_of : ℕ) (m : Option ℕ) : ℕ :=
  multiple_of * ((ffnBase dim m + multiple_of - 1) / multiple_of)

/-- silu(z) = z * sigmoid(z). -/
def silu (z : ℝ) : ℝ := z * (1 + Real.exp (-z))⁻¹

/-- FFN.forward: w2(silu(w1 x) * w3 x). -/
def ffnF (fw : FFNW) (dim hidden : ℕ) (x : ℕ → ℝ) (j : ℕ) : ℝ :=
  linearF fw.w2 hidden (fun i => silu (linearF fw.w1 dim x i) * linearF fw.w3 dim x i) j

/-- Weights of one TransformerBlock. -/
structure BlockW where
  attention : AttnW
  attn_norm : RMSNormW
  ffn : FFNW
  ffn_norm : RMSNormW

/-- The feed-forward half of TransformerBlock.forward: ffn(ffn_norm(x)),
with the hidden dimension the block constructor derives
(FFN(args.dim, args.multiple_of) - no multiplier is passed). -/
def blockFFNOut (c : Args) (bw : BlockW) (x : Seq3) (b t j : ℕ) : ℝ :=
  ffnF bw.ffn c.dim (ffnHiddenDim c.dim c.multiple_of none)
    (fun i => rmsnorm bw.ffn_norm c.dim (x b t) i) j

/-- The attention residual of TransformerBlock.forward:
x_ = x + attention(attn_norm(x), ...). -/
def attnResidual (c : Args) (bw : BlockW) (st : AttnState) (x : Seq3)
    (B T s : ℕ) (freqs : Freqs) (mask : Option Mask) (b t j : ℕ) : ℝ :=
  x b t j + attnOutF c bw.attention st
    (fun b2 t2 => rmsnorm bw.attn_norm c.dim (x b2 t2)) B T s freqs mask b t j

/-- The full output of TransformerBlock.forward: out = x_ + ffn(ffn_norm(x_)). -/
def blockOutF (c : Args) (bw : BlockW) (st : AttnState) (x : Seq3)
    (B T s : ℕ) (freqs : Freqs) (mask : Option Mask) (b t j : ℕ) : ℝ :=
  attnResidual c bw st x B T s freqs mask b t j +
    blockFFNOut c bw (attnResidual c bw st x B T s freqs mask) b t j

/-- TransformerBlock.forward.  Its source signature is
(x, start_pos, freqs, mask), but the model invokes it as
layer(x, start_pos, mask, freqs), so the third positional parameter (named
freqs in the source) actually carries the additive mask and the fourth
(named mask) carries the rotary factors; the body in turn invokes
self.attention(attn_norm(x), start_pos, mask, freqs) against the attention
signature (x, start_pos, freqs, mask), swapping them back.  The binders
below keep the source names and therefore the source types-as-used. -/
def TransformerBlock.forward (c : Args) (bw : BlockW) (st : AttnState) (x : Seq3)
    (B T s : ℕ) (freqs : Option Mask) (mask : Freqs) : Seq3 × AttnState :=
  (blockOutF c bw st x B T s mask freqs,
   attnNewState c bw.attention st
     (fun b2 t2 => rmsnorm bw.attn_norm c.dim (x b2 t2)) B T s mask)

/-- Weights of the full Transformer model. -/
structure TransformerW where
  tok_embeddings : ℕ → ℕ → ℝ
  layers : List BlockW
  norm : RMSNormW
  out : ℕ → ℕ → ℝ

/-- The rotary table the Transformer constructor precomputes:
precomputed_freqs(dim // n_heads, seq_len * 2). -/
def Transformer.freqsTable (c : Args) : Freqs :=
  precomputedFreqs c.h_size (c.seq_len * 2) 10000

/-- The causal mask Transformer.forward builds when T > 1: a (T, start_pos + T)
matrix whose first start_pos columns are zeros (torch.zeros((T, start_pos))
hstacked on the left) and whose trailing T-by-T block is
torch.triu(torch.full((T, T), -inf), diagonal=1): bottom strictly above the
diagonal, zero on and below it. -/
def causalMask (T s : ℕ) (i j : ℕ) : EReal :=
  if j < s then 0 else if s + i + 1 ≤ j then ⊥ else 0

/-- The mask argument Transformer.forward passes to its layers:
built only when T > 1, absent (None) when T = 1. -/
def modelMask (T s : ℕ) : Option Mask :=
  if 1 < T then some (causalMask T s) else none

/-- Default attention state used to pad state lists. -/
def inhState : AttnState := ⟨fun _ _ _ _ => 0, fun _ _ _ _ => 0⟩

/-- The layer loop of Transformer.forward, threading the per-layer cache
states.  Each layer is invoked as layer(x, start_pos, mask, freqs) - the
causal mask of the model goes into the third positional slot and the
rotary slice into the fourth, exactly as in the source. -/
def runLayers (c : Args) :
    List BlockW → List AttnState → Seq3 → ℕ → ℕ → ℕ → Option Mask → Freqs →
      Seq3 × List AttnState
  | [], _, x, _, _, _, _, _ => (x, [])
  | bw :: rest, sts, x, B, T, s, mask, freqs =>
    let r1 := TransformerBlock.forward c bw (sts.headD inhState) x B T s mask freqs
    let r2 := runLayers c rest sts.tail r1.1 B T s mask freqs
    (r2.1, r1.2 :: r2.2)

/-- Transformer.forward: embed the tokens, slice the rotary table to
[start_pos, start_pos + T), build the causal mask when T > 1, run the layers,
final-normalize and project to vocabulary logits. -/
def Transformer.forward (c : Args) (tw : TransformerW) (st : List AttnState)
    (tokens : ℕ → ℕ → ℕ) (B T s : ℕ) : Seq3 × List AttnState :=
  let x0 : Seq3 := fun b t j => tw.tok_embeddings (tokens b t) j
  let r := runLayers c tw.layers st x0 B T s (modelMask T s)
    (fun u i => Transformer.freqsTable c (s + u) i)
  (fun b t j => linearF tw.out c.dim (fun i => rmsnorm tw.norm c.dim (r.1 b t) i) j, r.2)

/-- Spec-side counterpart of TransformerBlock.forward, written to the semantic
contract of the spec (mask applied additively pre-softmax, rotary factors
applied to q and k before the cache write), with the rotary factors in the
third slot and the mask in the fourth - the signature order of the attention
module.  Transformer.forward is proved equal to the composition of these. -/
def blockForwardSemantic (c : Args) (bw : BlockW) (st : AttnState) (x : Seq3)
    (B T s : ℕ) (freqs : Freqs) (mask : Option Mask) : Seq3 × AttnState :=
  (blockOutF c bw st x B T s freqs mask,
   attnNewState c bw.attention st
     (fun b2 t2 => rmsnorm bw.attn_norm c.dim (x b2 t2)) B T s freqs)

/-- Layer loop over the semantic blocks, passing rotary factors and mask in
signature order. -/
def runLayersSemantic (c : Args) :
    List BlockW → List AttnState → Seq3 → ℕ → ℕ → ℕ → Freqs → Option Mask →
      Seq3 × List AttnState
  | [], _, x, _, _, _, _, _ => (x, [])
  | bw :: rest, sts, x, B, T, s, freqs, mask =>
    let r1 := blockForwardSemantic c bw (sts.headD inhState) x B T s freqs mask
    let r2 := runLayersSemantic c rest sts.tail r1.1 B T s freqs mask
    (r2.1, r1.2 :: r2.2)

/-- The model forward as the spec describes it: every layer receives the
rotary factors for positions [start_pos, start_pos + T) as the tensor to
rotate q and k with, and the built causal mask as the additive pre-softmax
mask. -/
def Transformer.forwardSemantic (c : Args) (tw : TransformerW) (st : List AttnState)
    (tokens : ℕ → ℕ → ℕ) (B T s : ℕ) : Seq3 × List AttnState :=
  let x0 : Seq3 := fun b t j => tw.tok_embeddings (tokens b t) j
  let r := runLayersSemantic c tw.layers st x0 B T s
    (fun u i => Transformer.freqsTable c (s + u) i) (modelMask T s)
  (fun b t j => linearF tw.out c.dim (fun i => rmsnorm tw.norm c.dim (r.1 b t) i) j, r.2)

/-- Modelled from the spec (section 4.3, steps 4-6, and claim C2): standard
multi-head attention scores - the scaled dot product of the rotated queries
with the CACHED ROTATED KEYS of the same head, scaled by the inverse square
root of the head size. -/
def stdScores (c : Args) (q kCached : Heads4) (b h t p : ℕ) : ℝ :=
  (∑ d ∈ Finset.range c.h_size, q b t h d * kCached b p h d) / Real.sqrt (c.h_size : ℝ)

/-- Reference per-position attention output on a full hidden sequence:
query position t attends to positions 0..t (inclusive) with softmax over
those t+1 scores and no mask, the rotary factor of absolute position t
applied to the query, and the key/value tensor of the source (the value
projection, per the v_cache read) at absolute positions.  This is the common
reference both the one-shot call and the incremental calls are proved equal
to. -/
def refAttnOut (c : Args) (aw : AttnW) (xn : Seq3) (b t j : ℕ) : ℝ :=
  linearF aw.wo (c.n_q_heads * c.h_size)
    (fun e =>
      ∑ p ∈ Finset.range (t + 1),
        softmaxRow (t + 1)
          (fun p2 =>
            ((attnScores c (qRotF c aw.wq (Transformer.freqsTable c) xn)
                (projHeads c aw.wv xn) b (e / c.h_size) t p2 : ℝ) : EReal)) p *
          projHeads c aw.wv xn b p (repIdx c.n_rep (e / c.h_size)) (e % c.h_size)) j

/-- Reference attention residual on a full hidden sequence. -/
def refResidual (c : Args) (bw : BlockW) (h : Seq3) (b t j : ℕ) : ℝ :=
  h b t j + refAttnOut c bw.attention
    (fun b2 t2 => rmsnorm bw.attn_norm c.dim (h b2 t2)) b t j

/-- Reference semantics of one transformer block on a full hidden sequence. -/
def refBlockStep (c : Args) (bw : BlockW) (h : Seq3) (b t j : ℕ) : ℝ :=
  refResidual c bw h b t j + blockFFNOut c bw (refResidual c bw h) b t j

/-- Reference semantics of the layer stack. -/
def refLayers (c : Args) : List BlockW → Seq3 → Seq3
  | [], h => h
  | bw :: rest, h => refLayers c rest (refBlockStep c bw h)

/-- Reference hidden states of the model over the full token sequence. -/
def refHidden (c : Args) (tw : TransformerW) (tokens : ℕ → ℕ → ℕ) : Seq3 :=
  refLayers c tw.layers (fun b p j => tw.tok_embeddings (tokens b p) j)

/-- Reference logits of the model over the full token sequence. -/
def refLogits (c : Args) (tw : TransformerW) (tokens : ℕ → ℕ → ℕ) (b p j : ℕ) : ℝ :=
  linearF tw.out c.dim (fun i => rmsnorm tw.norm c.dim (refHidden c tw tokens b p) i) j

/-- Cache invariant: layer by layer, the value cache holds, at every batch row
below B and every position below s, the value projection of the normalized
reference hidden state feeding that layer. -/
def CacheInv (c : Args) (B s : ℕ) : List BlockW → List AttnState → Seq3 → Prop
  | [], _, _ => True
  | bw :: rest, sts, h =>
    (∀ b p hh d, b < B → p < s →
      (sts.headD inhState).v_cache b p hh d =
        projHeads c bw.attention.wv (fun b2 t => rmsnorm bw.attn_norm c.dim (h b2 t)) b p hh d)
    ∧ CacheInv c B s rest sts.tail (refBlockStep c bw h)

/-- The prefill call of an incremental run: the T0-token prompt at start_pos 0. -/
def prefillRun (c : Args) (tw : TransformerW) (st0 : List AttnState)
    (tokens : ℕ → ℕ → ℕ) (B T0 : ℕ) : Seq3 × List AttnState :=
  Transformer.forward c tw st0 tokens B T0 0

/-- Model state after the prefill and k single-token decode calls, the k-th
decode call processing token T0 + k - 1 ... namely after k steps the cache
covers positions below T0 + k. -/
def decodeState (c : Args) (tw : TransformerW) (st0 : List AttnState)
    (tokens : ℕ → ℕ → ℕ) (B T0 : ℕ) : ℕ → List AttnState
  | 0 => (prefillRun c tw st0 tokens B T0).2
  | k + 1 =>
    (Transformer.forward c tw (decodeState c tw st0 tokens B T0 k)
      (fun b u => tokens b (T0 + k + u)) B 1 (T0 + k)).2

/-- Logits of the single-token decode call at start_pos T0 + k. -/
def decodeLogits (c : Args) (tw : TransformerW) (st0 : List AttnState)
    (tokens : ℕ → ℕ → ℕ) (B T0 k : ℕ) : Seq3 :=
  (Transformer.forward c tw (decodeState c tw st0 tokens B T0 k)
    (fun b u => tokens b (T0 + k + u)) B 1 (T0 + k)).1

/-- Position-by-position logits of the incremental run: position p comes from
the prefill call when p < T0 and from the decode call at start_pos p
otherwise. -/
def incLogit (c : Args) (tw : TransformerW) (st0 : List AttnState)
    (tokens : ℕ → ℕ → ℕ) (B T0 p b j : ℕ) : ℝ :=
  if p < T0 then (prefillRun c tw st0 tokens B T0).1 b p j
  else decodeLogits c tw st0 tokens B T0 (p - T0) b 0 j

/-- Concrete two-channel, single-head configuration (dim 2, one layer, one
head, cache of one batch row by four positions) used for concrete
evaluations of the attention module. -/
def cfg2 : Args where
  dim := 2
  n_layers := 1
  n_heads := 1
  n_kv_heads := none
  vocab_size := 16
  multiple_of := 256
  ffn_dim_multiplier := none
  norm_eps := 1e-5
  batch_size := 1
  seq_len := 4

/-- The 2-by-2 identity weight matrix. -/
def id2 : ℕ → ℕ → ℝ := fun j i => if j = i then 1 else 0

/-- Concrete attention weights: identity query and key projections, zero
value projection, identity output projection. -/
def wEx : AttnW where
  wq := id2
  wk := id2
  wv := fun _ _ => 0
  wo := id2

/-- Concrete all-zero initial caches. -/
def st0Ex : AttnState := inhState

/-- Concrete input: the unit vector (1, 0) at every batch row and position. -/
def xEx : Seq3 := fun _ _ j => if j = 0 then 1 else 0

/-- Concrete rotary slice for a call at start_pos 0: the table of the model itself. -/
def frEx : Freqs := fun u i => Transformer.freqsTable cfg2 (0 + u) i

/-- Concrete norm weights: all-ones scale. -/
def nwEx : RMSNormW where
  w := fun _ => 1
  eps := 1e-6

/-- Concrete feed-forward weights: all zero. -/
def fwEx : FFNW where
  w1 := fun _ _ => 0
  w2 := fun _ _ => 0
  w3 := fun _ _ => 0

/-- Concrete block weights built from the concrete attention weights. -/
def bwEx : BlockW where
  attention := wEx
  attn_norm := nwEx
  ffn := fwEx
  ffn_norm := nwEx

/-- Concrete one-layer model weights. -/
def twEx : TransformerW where
  tok_embeddings := fun _ _ => 0
  layers := [bwEx]
  norm := nwEx
  out := id2

theorem expE_bot : expE ⊥ = 0 := rfl

theorem expE_coe (r : ℝ) : expE ((r : ℝ) : EReal) = Real.exp r := by
  rw [expE, if_neg (EReal.coe_ne_bot r), if_neg (EReal.coe_ne_top r), EReal.toReal_coe]

theorem sqrt_re_im_sq (z : ℂ) : Real.sqrt (z.re ^ 2 + z.im ^ 2) = Complex.abs z := by
  rw [Complex.abs_apply, Complex.normSq_apply]
  ring_nf

/-- C7: the feed-forward hidden dimension starts from int(2 * (4 * dim) / 3),
is optionally scaled by ffn_dim_multiplier, and is rounded up to the nearest
multiple of multiple_of (the result is a multiple of multiple_of, at least
the base, and less than the base plus multiple_of); for dim = 4096,
multiple_of = 256 and no multiplier it equals 11008. -/
theorem ffn_hidden_dim_correct (dim mo : ℕ) (mult : Option ℕ) (hmo : 0 < mo) :
    ffnHiddenDim dim mo mult % mo = 0 ∧
    ffnBase dim mult ≤ ffnHiddenDim dim mo mult ∧
    ffnHiddenDim dim mo mult < ffnBase dim mult + mo ∧
    ffnHiddenDim 4096 256 none = 11008 := by
  have h1 := Nat.div_add_mod (ffnBase dim mult + mo - 1) mo
  have h2 : (ffnBase dim mult + mo - 1) % mo < mo := Nat.mod_lt _ hmo
  refine ⟨Nat.mul_mod_right _ _, ?_, ?_, by norm_num [ffnHiddenDim, ffnBase]⟩ <;>
    · simp only [ffnHiddenDim]
      omega

theorem ffn_hidden_dim_correct_witness :
    0 < 256 ∧
    (ffnHiddenDim 4096 256 none % 256 = 0 ∧
      ffnBase 4096 none ≤ ffnHiddenDim 4096 256 none ∧
      ffnHiddenDim 4096 256 none < ffnBase 4096 none + 256 ∧
      ffnHiddenDim 4096 256 none = 11008) :=
  ⟨by norm_num, ffn_hidden_dim_correct 4096 256 none (by norm_num)⟩

/-- C5: when T > 1 the model builds Some causal mask which, over rows i < T
and columns j < start_pos + T, is zero on the first start_pos columns, zero
on and below the diagonal of the trailing T-by-T new-token block, and bottom
(the embedding of float(-inf)) strictly above that diagonal; when T = 1 the
mask passed to the layers is None. -/
theorem causal_mask_correct (T s : ℕ) (hT : 1 < T) :
    modelMask T s = some (causalMask T s) ∧
    (∀ i j, i < T → j < s + T → j < s → causalMask T s i j = 0) ∧
    (∀ i j, i < T → j < s + T → s ≤ j → j ≤ s + i → causalMask T s i j = 0) ∧
    (∀ i j, i < T → j < s + T → s + i < j → causalMask T s i j = ⊥) ∧
    (∀ s2, modelMask 1 s2 = none) := by
  refine ⟨by simp [modelMask, hT], ?_, ?_, ?_, fun s2 => by simp [modelMask]⟩
  · intro i j hi hj h
    rw [causalMask, if_pos h]
  · intro i j hi hj h1 h2
    rw [causalMask, if_neg (by omega), if_neg (by omega)]
  · intro i j hi hj h
    rw [causalMask, if_neg (by omega), if_pos (by omega)]

theorem causal_mask_correct_witness :
    1 < 2 ∧ modelMask 2 1 = some (causalMask 2 1) ∧ causalMask 2 1 0 0 = 0 ∧
    causalMask 2 1 1 2 = 0 ∧ causalMask 2 1 0 2 = ⊥ ∧ modelMask 1 0 = none := by
  have h := causal_mask_correct 2 1 (by norm_num)
  exact ⟨by norm_num, h.1, h.2.1 0 0 (by norm_num) (by norm_num) (by norm_num),
    h.2.2.1 1 2 (by norm_num) (by norm_num) (by norm_num) (by norm_num),
    h.2.2.2.1 0 2 (by norm_num) (by norm_num) (by norm_num), h.2.2.2.2 0⟩

/-- C8: every precomputed rotation factor of the rotary table has unit
magnitude, and applying the rotary encoding multiplies each consecutive pair
(channels 2i, 2i+1) of the last dimension by such a factor, preserving the L2
norm of the pair. -/
theorem rope_preserves_pair_norm (dim seqlen : ℕ) (theta : ℝ) (v : ℕ → ℝ) (m i : ℕ)
    (heven : dim % 2 = 0) (hm : m < seqlen) (hi : 2 * i < dim) :
    Complex.abs (precomputedFreqs dim seqlen theta m i) = 1 ∧
    Real.sqrt (ropeF (precomputedFreqs dim seqlen theta m) v (2 * i) ^ 2 +
        ropeF (precomputedFreqs dim seqlen theta m) v (2 * i + 1) ^ 2) =
      Real.sqrt (v (2 * i) ^ 2 + v (2 * i + 1) ^ 2) := by
  have hf : Complex.abs (precomputedFreqs dim seqlen theta m i) = 1 :=
    Complex.abs_exp_ofReal_mul_I _
  refine ⟨hf, ?_⟩
  have h0 : (2 * i) % 2 = 0 := by omega
  have h1 : (2 * i + 1) % 2 = 1 := by omega
  have hd0 : 2 * i / 2 = i := by omega
  have hd1 : (2 * i + 1) / 2 = i := by omega
  have e0 : ropeF (precomputedFreqs dim seqlen theta m) v (2 * i) =
      ((⟨v (2 * i), v (2 * i + 1)⟩ : ℂ) * precomputedFreqs dim seqlen theta m i).re := by
    rw [ropeF, if_pos h0, hd0]
  have e1 : ropeF (precomputedFreqs dim seqlen theta m) v (2 * i + 1) =
      ((⟨v (2 * i), v (2 * i + 1)⟩ : ℂ) * precomputedFreqs dim seqlen theta m i).im := by
    rw [ropeF, if_neg (by omega), hd1]
  rw [e0, e1, sqrt_re_im_sq]
  have e2 : Real.sqrt (v (2 * i) ^ 2 + v (2 * i + 1) ^ 2) =
      Complex.abs (⟨v (2 * i), v (2 * i + 1)⟩ : ℂ) :=
    sqrt_re_im_sq ⟨v (2 * i), v (2 * i + 1)⟩
  rw [e2, map_mul, hf, mul_one]

theorem rope_preserves_pair_norm_witness :
    2 % 2 = 0 ∧ 0 < 1 ∧ 2 * 0 < 2 ∧
    (Complex.abs (precomputedFreqs 2 1 10000 0 0) = 1 ∧
      Real.sqrt (ropeF (precomputedFreqs 2 1 10000 0) (fun _ => 1) (2 * 0) ^ 2 +
          ropeF (precomputedFreqs 2 1 10000 0) (fun _ => 1) (2 * 0 + 1) ^ 2) =
        Real.sqrt ((fun (_ : ℕ) => (1 : ℝ)) (2 * 0) ^ 2 +
          (fun (_ : ℕ) => (1 : ℝ)) (2 * 0 + 1) ^ 2)) :=
  ⟨by norm_num, by norm_num, by norm_num,
    rope_preserves_pair_norm 2 1 10000 (fun _ => 1) 0 0 (by norm_num) (by norm_num) (by norm_num)⟩

/-- C6: in a forward call with T > 1 - so the model-built mask is present -
the post-softmax attention weight that the query at new-token row p assigns
to the key at new-token row q, for q > p within the same call, is exactly
zero: the mask entry is bottom, its exponential is zero, and so is the
softmax numerator. -/
theorem causal_weight_zero (c : Args) (w : AttnW) (st : AttnState) (x : Seq3)
    (B T s : ℕ) (freqs : Freqs) (b h p q : ℕ)
    (hT : 1 < T) (hp : p < T) (hq : q < T) (hpq : p < q) :
    attnWeightsF c w st x B T s freqs (modelMask T s) b h p (s + q) = 0 := by
  rw [attnWeightsF, modelMask, if_pos hT, softmaxRow, scoresWithMask]
  rw [causalMask, if_neg (by omega), if_pos (by omega), EReal.add_bot, expE_bot, zero_div]

theorem causal_weight_zero_witness :
    (1 < 2 ∧ 0 < 2 ∧ 1 < 2 ∧ 0 < 1) ∧
    attnWeightsF cfg2 wEx st0Ex xEx 1 2 0 frEx (modelMask 2 0) 0 0 0 (0 + 1) = 0 :=
  ⟨⟨by norm_num, by norm_num, by norm_num, by norm_num⟩,
    causal_weight_zero cfg2 wEx st0Ex xEx 1 2 0 frEx 0 0 0 1
      (by norm_num) (by norm_num) (by norm_num) (by norm_num)⟩

/-- C10: a successful SelfAttention.forward call mutates the key and value
caches only at batch rows below B and positions in [start_pos, start_pos+T);
and a call whose input channel dimension D differs from dim fails the leading
shape assert before any cache write and returns the caches entirely
unchanged. -/
theorem attn_frame_conditions (c : Args) (w : AttnW) (st : AttnState) (x : Seq3)
    (B T D s : ℕ) (freqs : Freqs) (mask : Option Mask) :
    (∀ out st2,
      SelfAttention.forward c w st x B T D s freqs mask = (Except.ok out, st2) →
      ∀ b p h d, B ≤ b ∨ p < s ∨ s + T ≤ p →
        st2.k_cache b p h d = st.k_cache b p h d ∧
        st2.v_cache b p h d = st.v_cache b p h d) ∧
    (D ≠ c.dim →
      SelfAttention.forward c w st x B T D s freqs mask =
        (Except.error AttnErr.shapeMismatch, st)) := by
  constructor
  · intro out st2 heq b p h d hout
    rw [SelfAttention.forward] at heq
    split_ifs at heq
    · injection heq with h1 h2
      subst h2
      constructor <;>
        · simp only [attnNewState, writeSlice]
          rw [if_neg (by omega)]
    all_goals simp at heq
  · intro hD
    rw [SelfAttention.forward, if_neg hD]

theorem attn_frame_conditions_witness :
    (attnNewState cfg2 wEx st0Ex xEx 1 1 0 frEx).k_cache 0 2 0 0 = st0Ex.k_cache 0 2 0 0 ∧
    (attnNewState cfg2 wEx st0Ex xEx 1 1 0 frEx).v_cache 0 2 0 0 = st0Ex.v_cache 0 2 0 0 :=
  (attn_frame_conditions cfg2 wEx st0Ex xEx 1 1 2 0 frEx none).1
    (attnOutF cfg2 wEx st0Ex xEx 1 1 0 frEx none)
    (attnNewState cfg2 wEx st0Ex xEx 1 1 0 frEx) rfl 0 2 0 0 (by omega)

/-- C4 evidence: a single-token call (T = 1) at start_pos = seq_len - for
which start_pos + T exceeds the allocated sequence length - raises no error:
the clamped destination slice is empty, the one-row source broadcasts into
it, and the call returns ok with both caches unchanged (the key
and value of the new token are silently dropped).  No CacheOverflowError exists in the code;
a multi-token overflow surfaces only as a generic slice-shape mismatch. -/
theorem cache_overflow_silent :
    cfg2.seq_len < 4 + 1 ∧
    (SelfAttention.forward cfg2 wEx st0Ex xEx 1 1 2 4 frEx none).1 =
      Except.ok (attnOutF cfg2 wEx st0Ex xEx 1 1 4 frEx none) ∧
    (SelfAttention.forward cfg2 wEx st0Ex xEx 1 1 2 4 frEx none).2.k_cache =
      st0Ex.k_cache ∧
    (SelfAttention.forward cfg2 wEx st0Ex xEx 1 1 2 4 frEx none).2.v_cache =
      st0Ex.v_cache := by
  have hs : cfg2.seq_len = 4 := rfl
  have h2 : (SelfAttention.forward cfg2 wEx st0Ex xEx 1 1 2 4 frEx none).2 =
      attnNewState cfg2 wEx st0Ex xEx 1 1 4 frEx := rfl
  refine ⟨by omega, rfl, ?_, ?_⟩ <;>
    · rw [h2]
      funext b p h d
      simp only [attnNewState, writeSlice]
      rw [if_neg (by omega)]

/-- C3 evidence: at a concrete call, the tensor the score computation uses as
keys - read back from the VALUE cache by the source line
k = self.v_cache[:B, :start_pos + T] - is 0, while the rotated key actually
written into the key cache at the same index is 1; the key tensor used does
not equal the key-cache contents. -/
theorem keys_read_from_value_cache :
    keysUsed cfg2 wEx st0Ex xEx 1 1 0 frEx 0 0 0 0 = 0 ∧
    (attnNewState cfg2 wEx st0Ex xEx 1 1 0 frEx).k_cache 0 0 0 0 = 1 ∧
    keysUsed cfg2 wEx st0Ex xEx 1 1 0 frEx 0 0 0 0 ≠
      (attnNewState cfg2 wEx st0Ex xEx 1 1 0 frEx).k_cache 0 0 0 0 := by
  have hfr : ∀ i, frEx 0 i = 1 := by
    intro i
    simp [frEx, Transformer.freqsTable, precomputedFreqs]
  have hcond : (0 < 1 ∧ 0 < cfg2.batch_size ∧ 0 ≤ 0 ∧ (0:ℕ) < 0 + 1 ∧ 0 < cfg2.seq_len) := by
    refine ⟨by omega, by rw [show cfg2.batch_size = 1 from rfl]; omega, by omega, by omega,
      by rw [show cfg2.seq_len = 4 from rfl]; omega⟩
  have hv : keysUsed cfg2 wEx st0Ex xEx 1 1 0 frEx 0 0 0 0 = 0 := by
    simp only [keysUsed, attnNewState, writeSlice]
    rw [if_pos hcond]
    simp [projHeads, linearF, wEx]
  have hq0 : projHeads cfg2 wEx.wk xEx 0 0 0 0 = 1 := by
    rw [show wEx.wk = id2 from rfl]
    simp [projHeads, linearF, id2, xEx, show cfg2.dim = 2 from rfl,
      Finset.sum_range_succ]
  have hq1 : projHeads cfg2 wEx.wk xEx 0 0 0 1 = 0 := by
    rw [show wEx.wk = id2 from rfl]
    simp [projHeads, linearF, id2, xEx, show cfg2.dim = 2 from rfl,
      Finset.sum_range_succ]
  have hk : (attnNewState cfg2 wEx st0Ex xEx 1 1 0 frEx).k_cache 0 0 0 0 = 1 := by
    simp only [attnNewState, writeSlice]
    rw [if_pos hcond]
    rw [qRotF, ropeF]
    norm_num [hfr, hq0, hq1]
  exact ⟨hv, hk, by rw [hv, hk]; norm_num⟩

/-- C2 evidence (with n_kv_heads = n_heads, so n_rep = 1): the attention
scores the source computes are dot products against the value-cache contents,
multiplied by sqrt(h_size) - not the standard scaled dot products against the
cached rotated keys.  At a concrete input the computed score is 0 while the
standard multi-head attention score is 1/sqrt(2), which is nonzero. -/
theorem attn_scores_not_standard :
    cfg2.n_q_heads = cfg2.nkv ∧ cfg2.n_rep = 1 ∧
    attnScores cfg2 (qRotF cfg2 wEx.wq frEx xEx)
      (keysUsed cfg2 wEx st0Ex xEx 1 1 0 frEx) 0 0 0 0 = 0 ∧
    stdScores cfg2 (qRotF cfg2 wEx.wq frEx xEx)
      ((attnNewState cfg2 wEx st0Ex xEx 1 1 0 frEx).k_cache) 0 0 0 0 =
      (Real.sqrt 2)⁻¹ ∧
    (Real.sqrt 2)⁻¹ ≠ (0 : ℝ) := by
  have hfr : ∀ i, frEx 0 i = 1 := by
    intro i
    simp [frEx, Transformer.freqsTable, precomputedFreqs]
  have hcond : (0 < 1 ∧ 0 < cfg2.batch_size ∧ 0 ≤ 0 ∧ (0:ℕ) < 0 + 1 ∧ 0 < cfg2.seq_len) := by
    refine ⟨by omega, by rw [show cfg2.batch_size = 1 from rfl]; omega, by omega, by omega,
      by rw [show cfg2.seq_len = 4 from rfl]; omega⟩
  have hvz : ∀ d, keysUsed cfg2 wEx st0Ex xEx 1 1 0 frEx 0 0 (repIdx cfg2.n_rep 0) d = 0 := by
    intro d
    simp only [keysUsed, attnNewState, writeSlice]
    rw [if_pos ?side]
    case side =>
      exact ⟨hcond.1, hcond.2.1, hcond.2.2.1, hcond.2.2.2.1, hcond.2.2.2.2⟩
    simp [projHeads, linearF, wEx]
  have hq0 : qRotF cfg2 wEx.wq frEx xEx 0 0 0 0 = 1 := by
    have hp0 : projHeads cfg2 wEx.wq xEx 0 0 0 0 = 1 := by
      rw [show wEx.wq = id2 from rfl]
      simp [projHeads, linearF, id2, xEx, show cfg2.dim = 2 from rfl, Finset.sum_range_succ]
    have hp1 : projHeads cfg2 wEx.wq xEx 0 0 0 1 = 0 := by
      rw [show wEx.wq = id2 from rfl]
      simp [projHeads, linearF, id2, xEx, show cfg2.dim = 2 from rfl, Finset.sum_range_succ]
    rw [qRotF, ropeF]
    norm_num [hfr, hp0, hp1]
  have hq1 : qRotF cfg2 wEx.wq frEx xEx 0 0 0 1 = 0 := by
    have hp0 : projHeads cfg2 wEx.wq xEx 0 0 0 0 = 1 := by
      rw [show wEx.wq = id2 from rfl]
      simp [projHeads, linearF, id2, xEx, show cfg2.dim = 2 from rfl, Finset.sum_range_succ]
    have hp1 : projHeads cfg2 wEx.wq xEx 0 0 0 1 = 0 := by
      rw [show wEx.wq = id2 from rfl]
      simp [projHeads, linearF, id2, xEx, show cfg2.dim = 2 from rfl, Finset.sum_range_succ]
    rw [qRotF, ropeF]
    norm_num [hfr, hp0, hp1]
  have hk0 : (attnNewState cfg2 wEx st0Ex xEx 1 1 0 frEx).k_cache 0 0 0 0 = 1 := by
    have hp0 : projHeads cfg2 wEx.wk xEx 0 0 0 0 = 1 := by
      rw [show wEx.wk = id2 from rfl]
      simp [projHeads, linearF, id2, xEx, show cfg2.dim = 2 from rfl, Finset.sum_range_succ]
    have hp1 : projHeads cfg2 wEx.wk xEx 0 0 0 1 = 0 := by
      rw [show wEx.wk = id2 from rfl]
      simp [projHeads, linearF, id2, xEx, show cfg2.dim = 2 from rfl, Finset.sum_range_succ]
    simp only [attnNewState, writeSlice]
    rw [if_pos hcond, qRotF, ropeF]
    norm_num [hfr, hp0, hp1]
  have hk1 : (attnNewState cfg2 wEx st0Ex xEx 1 1 0 frEx).k_cache 0 0 0 1 = 0 := by
    have hp0 : projHeads cfg2 wEx.wk xEx 0 0 0 0 = 1 := by
      rw [show wEx.wk = id2 from rfl]
      simp [projHeads, linearF, id2, xEx, show cfg2.dim = 2 from rfl, Finset.sum_range_succ]
    have hp1 : projHeads cfg2 wEx.wk xEx 0 0 0 1 = 0 := by
      rw [show wEx.wk = id2 from rfl]
      simp [projHeads, linearF, id2, xEx, show cfg2.dim = 2 from rfl, Finset.sum_range_succ]
    simp only [attnNewState, writeSlice]
    rw [if_pos hcond, qRotF, ropeF]
    norm_num [hfr, hp0, hp1]
  have hsq : (0:ℝ) < Real.sqrt 2 := Real.sqrt_pos.mpr (by norm_num)
  refine ⟨rfl, rfl, ?_, ?_, by positivity⟩
  · rw [attnScores, show cfg2.h_size = 2 from rfl, Finset.sum_range_succ,
      Finset.sum_range_succ, Finset.sum_range_zero, hvz 0, hvz 1]
    ring
  · rw [stdScores, show cfg2.h_size = 2 from rfl, Finset.sum_range_succ,
      Finset.sum_range_succ, Finset.sum_range_zero, hq0, hq1, hk0, hk1]
    norm_num

/-- C9: the model and the block pass the causal mask and the rotary factors
in swapped positional order at both call sites (layer(x, start_pos, mask,
freqs) against signature (x, start_pos, freqs, mask), and
attention(x, start_pos, mask, freqs) against signature (x, start_pos, freqs,
mask)), and the two swaps cancel: Transformer.forward is exactly the
composition of semantic layers in which every attention receives the rotary
factors for [start_pos, start_pos + T) as the tensor rotating q and k before
the cache write, and the model-built causal mask (absent when T = 1) as the
value added to the scores before softmax. -/
theorem arg_swaps_cancel (c : Args) (tw : TransformerW) (st : List AttnState)
    (tokens : ℕ → ℕ → ℕ) (B T s : ℕ) :
    Transformer.forward c tw st tokens B T s =
      Transformer.forwardSemantic c tw st tokens B T s := by
  have h : ∀ (bws : List BlockW) (sts : List AttnState) (x : Seq3)
      (m : Option Mask) (f : Freqs),
      runLayers c bws sts x B T s m f = runLayersSemantic c bws sts x B T s f m := by
    intro bws
    induction bws with
    | nil => intro sts x m f; rfl
    | cons bw rest ih =>
      intro sts x m f
      simp only [runLayers, runLayersSemantic]
      rw [ih]
      rfl
  simp only [Transformer.forward, Transformer.forwardSemantic, h]

theorem sum_range_eq_of_eq_of_zero (n m : ℕ) (f g : ℕ → ℝ) (hnm : n ≤ m)
    (hfg : ∀ p, p < n → f p = g p) (hf0 : ∀ p, n ≤ p → p < m → f p = 0) :
    ∑ p ∈ Finset.range m, f p = ∑ p ∈ Finset.range n, g p := by
  rw [← Finset.sum_subset (Finset.range_subset.mpr hnm)
    (fun p hpm hpn => hf0 p (Nat.le_of_not_lt (by simpa using hpn))
      (Finset.mem_range.mp hpm))]
  exact Finset.sum_congr rfl fun p hp => hfg p (Finset.mem_range.mp hp)

theorem causalMask_zero_of_le (T s u p : ℕ) (hp : p ≤ s + u) : causalMask T s u p = 0 := by
  rw [causalMask]
  by_cases h1 : p < s
  · rw [if_pos h1]
  · rw [if_neg h1, if_neg (by omega)]

theorem causalMask_bot_of_gt (T s u p : ℕ) (hp : s + u + 1 ≤ p) : causalMask T s u p = ⊥ := by
  rw [causalMask, if_neg (by omega), if_pos hp]

theorem softmaxRow_coe (n : ℕ) (g : ℕ → ℝ) (p : ℕ) :
    softmaxRow n (fun p2 => ((g p2 : ℝ) : EReal)) p =
      Real.exp (g p) / ∑ q ∈ Finset.range n, Real.exp (g q) := by
  simp only [softmaxRow, expE_coe]

theorem attn_call_eq_ref (c : Args) (aw : AttnW) (B T s : ℕ) (st : AttnState)
    (xn hn : Seq3)
    (hT : 1 ≤ T) (hs : s + T ≤ c.seq_len) (hB : B ≤ c.batch_size)
    (hx : ∀ b u, b < B → u < T → xn b u = hn b (s + u))
    (hcache : ∀ b p hh d, b < B → p < s →
      st.v_cache b p hh d = projHeads c aw.wv hn b p hh d) :
    (∀ b u, b < B → u < T → ∀ j,
      attnOutF c aw st xn B T s (fun u2 i => Transformer.freqsTable c (s + u2) i)
        (modelMask T s) b u j = refAttnOut c aw hn b (s + u) j) ∧
    (∀ b p hh d, b < B → p < s + T →
      (attnNewState c aw st xn B T s
        (fun u2 i => Transformer.freqsTable c (s + u2) i)).v_cache b p hh d =
        projHeads c aw.wv hn b p hh d) := by
  have hkeylen : attnKeyLen c T s = s + T := by
    rw [attnKeyLen]
    omega
  have hvc : ∀ b p hh d, b < B → p < s + T →
      (attnNewState c aw st xn B T s
        (fun u2 i => Transformer.freqsTable c (s + u2) i)).v_cache b p hh d =
        projHeads c aw.wv hn b p hh d := by
    intro b p hh d hb hp
    simp only [attnNewState, writeSlice]
    by_cases hps : s ≤ p
    · rw [if_pos ⟨hb, lt_of_lt_of_le hb hB, hps, hp, lt_of_lt_of_le hp hs⟩]
      rw [projHeads, projHeads, hx b (p - s) hb (by omega),
        show s + (p - s) = p by omega]
    · rw [if_neg (by omega)]
      exact hcache b p hh d hb (by omega)
  refine ⟨?_, hvc⟩
  have hq : ∀ b u hh e, b < B → u < T →
      qRotF c aw.wq (fun u2 i => Transformer.freqsTable c (s + u2) i) xn b u hh e =
      qRotF c aw.wq (Transformer.freqsTable c) hn b (s + u) hh e := by
    intro b u hh e hb hu
    simp only [qRotF, projHeads, hx b u hb hu]
  have hsc : ∀ b hh u p, b < B → u < T → p < s + T →
      attnScores c
        (qRotF c aw.wq (fun u2 i => Transformer.freqsTable c (s + u2) i) xn)
        (keysUsed c aw st xn B T s (fun u2 i => Transformer.freqsTable c (s + u2) i))
        b hh u p =
      attnScores c (qRotF c aw.wq (Transformer.freqsTable c) hn)
        (projHeads c aw.wv hn) b hh (s + u) p := by
    intro b hh u p hb hu hp
    rw [attnScores, attnScores]
    congr 1
    refine Finset.sum_congr rfl fun e _ => ?_
    rw [hq b u hh e hb hu, keysUsed, hvc b p (repIdx c.n_rep hh) e hb hp]
  have hden : ∀ b hh u, b < B → u < T →
      ∑ p2 ∈ Finset.range (attnKeyLen c T s),
        expE (scoresWithMask (modelMask T s)
          (attnScores c
            (qRotF c aw.wq (fun u2 i => Transformer.freqsTable c (s + u2) i) xn)
            (keysUsed c aw st xn B T s (fun u2 i => Transformer.freqsTable c (s + u2) i)))
          b hh u p2) =
      ∑ p2 ∈ Finset.range (s + u + 1),
        Real.exp (attnScores c (qRotF c aw.wq (Transformer.freqsTable c) hn)
          (projHeads c aw.wv hn) b hh (s + u) p2) := by
    intro b hh u hb hu
    rw [hkeylen]
    by_cases hT1 : 1 < T
    · rw [show modelMask T s = some (causalMask T s) from by rw [modelMask, if_pos hT1]]
      simp only [scoresWithMask]
      refine sum_range_eq_of_eq_of_zero (s + u + 1) (s + T) _ _ (by omega) ?_ ?_
      · intro p hp
        rw [causalMask_zero_of_le T s u p (by omega), add_zero, expE_coe,
          hsc b hh u p hb hu (by omega)]
      · intro p hp1 hp2
        rw [causalMask_bot_of_gt T s u p hp1, EReal.add_bot, expE_bot]
    · rw [show modelMask T s = none from by rw [modelMask, if_neg hT1]]
      simp only [scoresWithMask]
      refine Finset.sum_congr (congrArg Finset.range (by omega)) fun p hp => ?_
      have hp2 : p < s + u + 1 := Finset.mem_range.mp hp
      rw [expE_coe, hsc b hh u p hb hu (by omega)]
  have hw : ∀ b hh u p, b < B → u < T → p < s + u + 1 →
      attnWeightsF c aw st xn B T s (fun u2 i => Transformer.freqsTable c (s + u2) i)
        (modelMask T s) b hh u p =
      softmaxRow (s + u + 1)
        (fun p2 => ((attnScores c (qRotF c aw.wq (Transformer.freqsTable c) hn)
          (projHeads c aw.wv hn) b hh (s + u) p2 : ℝ) : EReal)) p := by
    intro b hh u p hb hu hp
    have hnum : expE (scoresWithMask (modelMask T s)
        (attnScores c
          (qRotF c aw.wq (fun u2 i => Transformer.freqsTable c (s + u2) i) xn)
          (keysUsed c aw st xn B T s (fun u2 i => Transformer.freqsTable c (s + u2) i)))
        b hh u p) =
        Real.exp (attnScores c (qRotF c aw.wq (Transformer.freqsTable c) hn)
          (projHeads c aw.wv hn) b hh (s + u) p) := by
      by_cases hT1 : 1 < T
      · rw [show modelMask T s = some (causalMask T s) from by rw [modelMask, if_pos hT1]]
        simp only [scoresWithMask]
        rw [causalMask_zero_of_le T s u p (by omega), add_zero, expE_coe,
          hsc b hh u p hb hu (by omega)]
      · rw [show modelMask T s = none from by rw [modelMask, if_neg hT1]]
        simp only [scoresWithMask]
        rw [expE_coe, hsc b hh u p hb hu (by omega)]
    rw [attnWeightsF, softmaxRow, hnum, hden b hh u hb hu, softmaxRow_coe]
  have hw0 : ∀ b hh u p, b < B → u < T → s + u + 1 ≤ p → p < s + T →
      attnWeightsF c aw st xn B T s (fun u2 i => Transformer.freqsTable c (s + u2) i)
        (modelMask T s) b hh u p = 0 := by
    intro b hh u p hb hu hp1 hp2
    have hT1 : 1 < T := by omega
    rw [attnWeightsF, softmaxRow,
      show modelMask T s = some (causalMask T s) from by rw [modelMask, if_pos hT1]]
    simp only [scoresWithMask]
    rw [causalMask_bot_of_gt T s u p hp1, EReal.add_bot, expE_bot, zero_div]
  intro b u hb hu j
  simp only [attnOutF, refAttnOut, linearF]
  refine Finset.sum_congr rfl fun e _ => ?_
  congr 1
  simp only [attnHeadsOut]
  refine sum_range_eq_of_eq_of_zero (s + u + 1) (attnKeyLen c T s) _ _
    (by rw [hkeylen]; omega) ?_ ?_
  · intro p hp
    rw [hw b (e / c.h_size) u p hb hu hp, valsUsed,
      hvc b p (repIdx c.n_rep (e / c.h_size)) (e % c.h_size) hb (by omega)]
  · intro p hp1 hp2
    rw [hw0 b (e / c.h_size) u p hb hu hp1 (by rw [hkeylen] at hp2; exact hp2), zero_mul]

theorem CacheInv_zero (c : Args) (B : ℕ) :
    ∀ (bws : List BlockW) (sts : List AttnState) (h : Seq3), CacheInv c B 0 bws sts h := by
  intro bws
  induction bws with
  | nil => intro sts h; trivial
  | cons bw rest ih =>
    intro sts h
    exact ⟨fun b p hh d hb hp => absurd hp (Nat.not_lt_zero p), ih sts.tail _⟩

theorem runLayers_eq_ref (c : Args) (B T s : ℕ)
    (hT : 1 ≤ T) (hs : s + T ≤ c.seq_len) (hB : B ≤ c.batch_size) :
    ∀ (bws : List BlockW) (sts : List AttnState) (x h : Seq3),
      (∀ b u, b < B → u < T → x b u = h b (s + u)) →
      CacheInv c B s bws sts h →
      (∀ b u, b < B → u < T →
        (runLayers c bws sts x B T s (modelMask T s)
          (fun u2 i => Transformer.freqsTable c (s + u2) i)).1 b u =
          refLayers c bws h b (s + u)) ∧
      CacheInv c B (s + T) bws
        (runLayers c bws sts x B T s (modelMask T s)
          (fun u2 i => Transformer.freqsTable c (s + u2) i)).2 h := by
  intro bws
  induction bws with
  | nil =>
    intro sts x h hx hinv
    exact ⟨fun b u hb hu => hx b u hb hu, trivial⟩
  | cons bw rest ih =>
    intro sts x h hx hinv
    have hxn : ∀ b u, b < B → u < T →
        (fun b2 t2 => rmsnorm bw.attn_norm c.dim (x b2 t2)) b u =
        (fun b2 t2 => rmsnorm bw.attn_norm c.dim (h b2 t2)) b (s + u) := by
      intro b u hb hu
      simp only
      rw [hx b u hb hu]
    have hA := attn_call_eq_ref c bw.attention B T s (sts.headD inhState)
      (fun b2 t2 => rmsnorm bw.attn_norm c.dim (x b2 t2))
      (fun b2 t2 => rmsnorm bw.attn_norm c.dim (h b2 t2))
      hT hs hB hxn hinv.1
    have hres : ∀ b u, b < B → u < T →
        attnResidual c bw (sts.headD inhState) x B T s
          (fun u2 i => Transformer.freqsTable c (s + u2) i) (modelMask T s) b u =
        refResidual c bw h b (s + u) := by
      intro b u hb hu
      funext j
      rw [attnResidual, refResidual, congrFun (hx b u hb hu) j, hA.1 b u hb hu j]
    have hblock : ∀ b u, b < B → u < T →
        blockOutF c bw (sts.headD inhState) x B T s
          (fun u2 i => Transformer.freqsTable c (s + u2) i) (modelMask T s) b u =
        refBlockStep c bw h b (s + u) := by
      intro b u hb hu
      funext j
      rw [blockOutF, refBlockStep, blockFFNOut, blockFFNOut, hres b u hb hu]
    constructor
    · intro b u hb hu
      simp only [runLayers, TransformerBlock.forward, refLayers]
      exact (ih sts.tail _ (refBlockStep c bw h) hblock hinv.2).1 b u hb hu
    · simp only [runLayers, TransformerBlock.forward, CacheInv, List.headD_cons,
        List.tail_cons]
      exact ⟨fun b p hh d hb hp => hA.2 b p hh d hb hp,
        (ih sts.tail _ (refBlockStep c bw h) hblock hinv.2).2⟩

theorem forward_eq_ref (c : Args) (tw : TransformerW) (tokens : ℕ → ℕ → ℕ)
    (B T s : ℕ) (sts : List AttnState)
    (hT : 1 ≤ T) (hs : s + T ≤ c.seq_len) (hB : B ≤ c.batch_size)
    (hinv : CacheInv c B s tw.layers sts
      (fun b p j => tw.tok_embeddings (tokens b p) j)) :
    (∀ b u, b < B → u < T → ∀ j,
      (Transformer.forward c tw sts (fun b2 u2 => tokens b2 (s + u2)) B T s).1 b u j =
        refLogits c tw tokens b (s + u) j) ∧
    CacheInv c B (s + T) tw.layers
      (Transformer.forward c tw sts (fun b2 u2 => tokens b2 (s + u2)) B T s).2
      (fun b p j => tw.tok_embeddings (tokens b p) j) := by
  have hx : ∀ b u, b < B → u < T →
      (fun (b2 t : ℕ) (j : ℕ) => tw.tok_embeddings (tokens b2 (s + t)) j) b u =
      (fun (b2 p : ℕ) (j : ℕ) => tw.tok_embeddings (tokens b2 p) j) b (s + u) :=
    fun b u _ _ => rfl
  have hrl := runLayers_eq_ref c B T s hT hs hB tw.layers sts
    (fun b2 t j => tw.tok_embeddings (tokens b2 (s + t)) j)
    (fun b p j => tw.tok_embeddings (tokens b p) j) hx hinv
  constructor
  · intro b u hb hu j
    simp only [Transformer.forward, refLogits, refHidden]
    rw [hrl.1 b u hb hu]
  · simp only [Transformer.forward]
    exact hrl.2

/-- C1: incremental decoding refines the one-shot call.  For a prompt of
length T0 at start_pos 0 followed by single-token decode calls at the
successive start positions, the per-position logits (from the prefill call
for p < T0, from the decode call at start_pos p otherwise) equal, exactly in
the real-arithmetic model, the logits of one forward call over the whole
N-token sequence at start_pos 0, at every batch row below B and every
channel, for any initial cache contents on either side. -/
theorem incremental_decode_matches_full (c : Args) (tw : TransformerW)
    (stA stB : List AttnState) (tokens : ℕ → ℕ → ℕ) (B T0 N : ℕ)
    (hT0 : 1 ≤ T0) (hTN : T0 ≤ N) (hN : N ≤ c.seq_len) (hB : B ≤ c.batch_size) :
    ∀ p, p < N → ∀ b, b < B → ∀ j,
      incLogit c tw stA tokens B T0 p b j =
        (Transformer.forward c tw stB tokens B N 0).1 b p j := by
  have htok : ∀ (st : List AttnState) (TT : ℕ),
      Transformer.forward c tw st (fun b2 u2 => tokens b2 (0 + u2)) B TT 0 =
      Transformer.forward c tw st tokens B TT 0 := by
    intro st TT
    have he : (fun (b2 u2 : ℕ) => tokens b2 (0 + u2)) = tokens := by
      funext b2 u2
      rw [Nat.zero_add]
    rw [he]
  have hfull := forward_eq_ref c tw tokens B N 0 stB (by omega) (by omega) hB
    (CacheInv_zero c B tw.layers stB _)
  have hpre := forward_eq_ref c tw tokens B T0 0 stA (by omega) (by omega) hB
    (CacheInv_zero c B tw.layers stA _)
  rw [htok stB N] at hfull
  rw [htok stA T0] at hpre
  have hstate : ∀ k, T0 + k ≤ N →
      CacheInv c B (T0 + k) tw.layers (decodeState c tw stA tokens B T0 k)
        (fun b p j => tw.tok_embeddings (tokens b p) j) := by
    intro k
    induction k with
    | zero =>
      intro hk
      have h0 := hpre.2
      rw [Nat.zero_add] at h0
      simp only [decodeState, prefillRun]
      exact h0
    | succ k ih =>
      intro hk
      have hstep := forward_eq_ref c tw tokens B 1 (T0 + k)
        (decodeState c tw stA tokens B T0 k) (by omega) (by omega) hB
        (ih (by omega))
      simp only [decodeState]
      exact hstep.2
  intro p hp b hb j
  by_cases hpT : p < T0
  · rw [incLogit, if_pos hpT, prefillRun]
    exact (hpre.1 b p hb hpT j).trans (hfull.1 b p hb hp j).symm
  · rw [incLogit, if_neg hpT, decodeLogits]
    have hstep := forward_eq_ref c tw tokens B 1 (T0 + (p - T0))
      (decodeState c tw stA tokens B T0 (p - T0)) (by omega) (by omega) hB
      (hstate (p - T0) (by omega))
    have h1 := hstep.1 b 0 hb (by omega) j
    have hidx : T0 + (p - T0) + 0 = 0 + p := by omega
    rw [hidx] at h1
    exact h1.trans (hfull.1 b p hb hp j).symm

theorem incremental_decode_matches_full_witness :
    (1 ≤ 1 ∧ 1 ≤ 1 ∧ 1 ≤ cfg2.seq_len ∧ 1 ≤ cfg2.batch_size) ∧
    incLogit cfg2 twEx [inhState] (fun _ _ => 0) 1 1 0 0 0 =
      (Transformer.forward cfg2 twEx [inhState] (fun _ _ => 0) 1 1 0).1 0 0 0 :=
  ⟨⟨le_refl 1, le_refl 1, by decide, by decide⟩,
    incremental_decode_matches_full cfg2 twEx [inhState] [inhState] (fun _ _ => 0)
      1 1 1 (le_refl 1) (le_refl 1) (by decide) (by decide) 0 (by decide) 0
      (by decide) 0⟩

end

end ZeroToLlama
